import Mathlib

/-!
Shallow embedding of the hasher repository (src/hasher.py): a streaming
multi-algorithm digest engine.  Bytes are naturals below 256; word
arithmetic is on Nat with explicit reduction modulo 2 to the word width.
-/

namespace Hasher

/-- A byte sequence; each element is intended to lie below 256. -/
abbrev Bytes := List Nat

def w32 : Nat := 4294967296

def w64 : Nat := 18446744073709551616

/-- Rotate a 32-bit word left by n bits. -/
def rotl32 (x n : Nat) : Nat := ((x <<< n) ||| (x >>> (32 - n))) % w32

/-- Rotate a 32-bit word right by n bits. -/
def rotr32 (x n : Nat) : Nat := ((x >>> n) ||| (x <<< (32 - n))) % w32

/-- Rotate a 64-bit word right by n bits. -/
def rotr64 (x n : Nat) : Nat := ((x >>> n) ||| (x <<< (64 - n))) % w64

/-- Bitwise complement within 32 bits. -/
def not32 (x : Nat) : Nat := x ^^^ (w32 - 1)

/-- Bitwise complement within 64 bits. -/
def not64 (x : Nat) : Nat := x ^^^ (w64 - 1)

/-- Lowercase hexadecimal digit for a value below 16. -/
def hexDigitChar (n : Nat) : Char :=
  if n < 10 then Char.ofNat (48 + n) else Char.ofNat (87 + n)

/-- Two lowercase hex digits of a byte. -/
def byteToHex (b : Nat) : String :=
  String.mk [hexDigitChar (b / 16 % 16), hexDigitChar (b % 16)]

def bytesToHex (bs : Bytes) : String := String.join (bs.map byteToHex)

/-- k bytes of x, little-endian. -/
def leBytes (k x : Nat) : Bytes := (List.range k).map fun i => (x >>> (8 * i)) % 256

/-- k bytes of x, big-endian. -/
def beBytes (k x : Nat) : Bytes := ((List.range k).map fun i => (x >>> (8 * i)) % 256).reverse

/-- The g-th little-endian 32-bit word of a block. -/
def leWord (block : Bytes) (g : Nat) : Nat :=
  block.getD (4 * g) 0 + 256 * block.getD (4 * g + 1) 0 + 65536 * block.getD (4 * g + 2) 0
    + 16777216 * block.getD (4 * g + 3) 0

/-- The g-th big-endian word of a block, bpw bytes per word. -/
def beWord (bpw : Nat) (block : Bytes) (g : Nat) : Nat :=
  (List.range bpw).foldl (fun acc i => acc * 256 + block.getD (bpw * g + i) 0) 0

/-- Split data into consecutive pieces of c bytes (the last one possibly
shorter); models the while-read loop of hash_file, where a read with a
zero size returns an empty chunk and ends the loop at once. -/
def chunksOf (c : Nat) (data : Bytes) : List Bytes :=
  if c = 0 ∨ data = [] then []
  else data.take c :: chunksOf c (data.drop c)
termination_by data.length
decreasing_by
  rename_i h
  push_neg at h
  obtain ⟨h1, h2⟩ := h
  have hd : 0 < data.length := List.length_pos.mpr h2
  simp only [List.length_drop]
  omega

/-- Split a padded message into its hash blocks of bs bytes each; the
padded length is always an exact multiple of bs. -/
def toBlocks (bs : Nat) (msg : Bytes) : List Bytes :=
  (List.range (msg.length / bs)).map fun j => (msg.drop (j * bs)).take bs

/-- Merkle-Damgard padding with a little-endian 64-bit length field (MD5). -/
def mdPad (msg : Bytes) : Bytes :=
  msg ++ 128 :: List.replicate ((120 - (msg.length + 1) % 64) % 64) 0
    ++ leBytes 8 ((8 * msg.length) % w64)

/-- Padding with a big-endian 64-bit length field (SHA-1, SHA-256). -/
def shaPad (msg : Bytes) : Bytes :=
  msg ++ 128 :: List.replicate ((120 - (msg.length + 1) % 64) % 64) 0
    ++ beBytes 8 ((8 * msg.length) % w64)

/-- Padding with a big-endian 128-bit length field on 128-byte blocks (SHA-512). -/
def sha512Pad (msg : Bytes) : Bytes :=
  msg ++ 128 :: List.replicate ((240 - (msg.length + 1) % 128) % 128) 0
    ++ beBytes 16 ((8 * msg.length) % (w64 * w64))

def md5K : List Nat := [
  0xd76aa478, 0xe8c7b756, 0x242070db, 0xc1bdceee, 0xf57c0faf, 0x4787c62a, 0xa8304613, 0xfd469501,
  0x698098d8, 0x8b44f7af, 0xffff5bb1, 0x895cd7be, 0x6b901122, 0xfd987193, 0xa679438e, 0x49b40821,
  0xf61e2562, 0xc040b340, 0x265e5a51, 0xe9b6c7aa, 0xd62f105d, 0x02441453, 0xd8a1e681, 0xe7d3fbc8,
  0x21e1cde6, 0xc33707d6, 0xf4d50d87, 0x455a14ed, 0xa9e3e905, 0xfcefa3f8, 0x676f02d9, 0x8d2a4c8a,
  0xfffa3942, 0x8771f681, 0x6d9d6122, 0xfde5380c, 0xa4beea44, 0x4bdecfa9, 0xf6bb4b60, 0xbebfbc70,
  0x289b7ec6, 0xeaa127fa, 0xd4ef3085, 0x04881d05, 0xd9d4d039, 0xe6db99e5, 0x1fa27cf8, 0xc4ac5665,
  0xf4292244, 0x432aff97, 0xab9423a7, 0xfc93a039, 0x655b59c3, 0x8f0ccc92, 0xffeff47d, 0x85845dd1,
  0x6fa87e4f, 0xfe2ce6e0, 0xa3014314, 0x4e0811a1, 0xf7537e82, 0xbd3af235, 0x2ad7d2bb, 0xeb86d391]

def md5S : List Nat := [
  7, 12, 17, 22, 7, 12, 17, 22, 7, 12, 17, 22, 7, 12, 17, 22,
  5, 9, 14, 20, 5, 9, 14, 20, 5, 9, 14, 20, 5, 9, 14, 20,
  4, 11, 16, 23, 4, 11, 16, 23, 4, 11, 16, 23, 4, 11, 16, 23,
  6, 10, 15, 21, 6, 10, 15, 21, 6, 10, 15, 21, 6, 10, 15, 21]

/-- One MD5 round: i is the round index, M the message-word accessor. -/
def md5Step (M : Nat → Nat) (st : Nat × Nat × Nat × Nat) (i : Nat) : Nat × Nat × Nat × Nat :=
  let (a, b, c, d) := st
  let fg : Nat × Nat :=
    if i < 16 then ((b &&& c) ||| (not32 b &&& d), i)
    else if i < 32 then ((d &&& b) ||| (not32 d &&& c), (5 * i + 1) % 16)
    else if i < 48 then (b ^^^ c ^^^ d, (3 * i + 5) % 16)
    else (c ^^^ (b ||| not32 d), (7 * i) % 16)
  let t := (fg.1 + a + md5K.getD i 0 + M fg.2) % w32
  (d, (b + rotl32 t (md5S.getD i 0)) % w32, b, c)

def md5Block (st : Nat × Nat × Nat × Nat) (block : Bytes) : Nat × Nat × Nat × Nat :=
  let r := (List.range 64).foldl (md5Step (leWord block)) st
  ((st.1 + r.1) % w32, (st.2.1 + r.2.1) % w32, (st.2.2.1 + r.2.2.1) % w32,
    (st.2.2.2 + r.2.2.2) % w32)

/-- MD5 digest of a byte sequence, as a lowercase hex string. -/
def md5Hex (msg : Bytes) : String :=
  let r := (toBlocks 64 (mdPad msg)).foldl md5Block
    (0x67452301, 0xefcdab89, 0x98badcfe, 0x10325476)
  bytesToHex (leBytes 4 r.1 ++ leBytes 4 r.2.1 ++ leBytes 4 r.2.2.1 ++ leBytes 4 r.2.2.2)

/-- One SHA-1 round on the five-word state. -/
def sha1Step (w : List Nat) (st : Nat × Nat × Nat × Nat × Nat) (i : Nat) :
    Nat × Nat × Nat × Nat × Nat :=
  let (a, b, c, d, e) := st
  let fk : Nat × Nat :=
    if i < 20 then ((b &&& c) ||| (not32 b &&& d), 0x5a827999)
    else if i < 40 then (b ^^^ c ^^^ d, 0x6ed9eba1)
    else if i < 60 then ((b &&& c) ||| (b &&& d) ||| (c &&& d), 0x8f1bbcdc)
    else (b ^^^ c ^^^ d, 0xca62c1d6)
  let t := (rotl32 a 5 + fk.1 + e + fk.2 + w.getD i 0) % w32
  (t, a, rotl32 b 30, c, d)

/-- Expand the 16 words of a SHA-1 block to the 80-word schedule. -/
def sha1Sched (block : Bytes) : List Nat :=
  (List.range 64).foldl
    (fun ws _ =>
      let n := ws.length
      ws ++ [rotl32 (ws.getD (n - 3) 0 ^^^ ws.getD (n - 8) 0 ^^^ ws.getD (n - 14) 0
        ^^^ ws.getD (n - 16) 0) 1])
    ((List.range 16).map (beWord 4 block))

def sha1Block (st : Nat × Nat × Nat × Nat × Nat) (block : Bytes) :
    Nat × Nat × Nat × Nat × Nat :=
  let r := (List.range 80).foldl (sha1Step (sha1Sched block)) st
  ((st.1 + r.1) % w32, (st.2.1 + r.2.1) % w32, (st.2.2.1 + r.2.2.1) % w32,
    (st.2.2.2.1 + r.2.2.2.1) % w32, (st.2.2.2.2 + r.2.2.2.2) % w32)

/-- SHA-1 digest of a byte sequence, as a lowercase hex string. -/
def sha1Hex (msg : Bytes) : String :=
  let r := (toBlocks 64 (shaPad msg)).foldl sha1Block
    (0x67452301, 0xefcdab89, 0x98badcfe, 0x10325476, 0xc3d2e1f0)
  bytesToHex (beBytes 4 r.1 ++ beBytes 4 r.2.1 ++ beBytes 4 r.2.2.1 ++ beBytes 4 r.2.2.2.1
    ++ beBytes 4 r.2.2.2.2)

def sha256K : List Nat := [
  1116352408, 1899447441, 3049323471, 3921009573, 961987163, 1508970993,
  2453635748, 2870763221, 3624381080, 310598401, 607225278, 1426881987,
  1925078388, 2162078206, 2614888103, 3248222580, 3835390401, 4022224774,
  264347078, 604807628, 770255983, 1249150122, 1555081692, 1996064986,
  2554220882, 2821834349, 2952996808, 3210313671, 3336571891, 3584528711,
  113926993, 338241895, 666307205, 773529912, 1294757372, 1396182291,
  1695183700, 1986661051, 2177026350, 2456956037, 2730485921, 2820302411,
  3259730800, 3345764771, 3516065817, 3600352804, 4094571909, 275423344,
  430227734, 506948616, 659060556, 883997877, 958139571, 1322822218,
  1537002063, 1747873779, 1955562222, 2024104815, 2227730452, 2361852424,
  2428436474, 2756734187, 3204031479, 3329325298]

/-- Expand the 16 words of a SHA-256 block to the 64-word schedule. -/
def sha256Sched (block : Bytes) : List Nat :=
  (List.range 48).foldl
    (fun ws _ =>
      let n := ws.length
      let x := ws.getD (n - 15) 0
      let y := ws.getD (n - 2) 0
      let s0 := rotr32 x 7 ^^^ rotr32 x 18 ^^^ (x >>> 3)
      let s1 := rotr32 y 17 ^^^ rotr32 y 19 ^^^ (y >>> 10)
      ws ++ [(ws.getD (n - 16) 0 + s0 + ws.getD (n - 7) 0 + s1) % w32])
    ((List.range 16).map (beWord 4 block))

/-- One SHA-256 round on the eight-word state (as a list). -/
def sha256Step (w : List Nat) (st : List Nat) (i : Nat) : List Nat :=
  match st with
  | [a, b, c, d, e, f, g, h] =>
    let s1 := rotr32 e 6 ^^^ rotr32 e 11 ^^^ rotr32 e 25
    let ch := (e &&& f) ^^^ (not32 e &&& g)
    let t1 := (h + s1 + ch + sha256K.getD i 0 + w.getD i 0) % w32
    let s0 := rotr32 a 2 ^^^ rotr32 a 13 ^^^ rotr32 a 22
    let maj := (a &&& b) ^^^ (a &&& c) ^^^ (b &&& c)
    let t2 := (s0 + maj) % w32
    [(t1 + t2) % w32, a, b, c, (d + t1) % w32, e, f, g]
  | _ => st

def sha256Block (st : List Nat) (block : Bytes) : List Nat :=
  let r := (List.range 64).foldl (sha256Step (sha256Sched block)) st
  List.zipWith (fun x y => (x + y) % w32) st r

/-- SHA-256 digest of a byte sequence, as a lowercase hex string. -/
def sha256Hex (msg : Bytes) : String :=
  let r := (toBlocks 64 (shaPad msg)).foldl sha256Block
    [1779033703, 3144134277, 1013904242, 2773480762,
      1359893119, 2600822924, 528734635, 1541459225]
  bytesToHex (r.map (beBytes 4)).flatten

def sha512K : List Nat := [
  4794697086780616226, 8158064640168781261, 13096744586834688815,
  16840607885511220156, 4131703408338449720, 6480981068601479193,
  10538285296894168987, 12329834152419229976, 15566598209576043074,
  1334009975649890238, 2608012711638119052, 6128411473006802146,
  8268148722764581231, 9286055187155687089, 11230858885718282805,
  13951009754708518548, 16472876342353939154, 17275323862435702243,
  1135362057144423861, 2597628984639134821, 3308224258029322869,
  5365058923640841347, 6679025012923562964, 8573033837759648693,
  10970295158949994411, 12119686244451234320, 12683024718118986047,
  13788192230050041572, 14330467153632333762, 15395433587784984357,
  489312712824947311, 1452737877330783856, 2861767655752347644,
  3322285676063803686, 5560940570517711597, 5996557281743188959,
  7280758554555802590, 8532644243296465576, 9350256976987008742,
  10552545826968843579, 11727347734174303076, 12113106623233404929,
  14000437183269869457, 14369950271660146224, 15101387698204529176,
  15463397548674623760, 17586052441742319658, 1182934255886127544,
  1847814050463011016, 2177327727835720531, 2830643537854262169,
  3796741975233480872, 4115178125766777443, 5681478168544905931,
  6601373596472566643, 7507060721942968483, 8399075790359081724,
  8693463985226723168, 9568029438360202098, 10144078919501101548,
  10430055236837252648, 11840083180663258601, 13761210420658862357,
  14299343276471374635, 14566680578165727644, 15097957966210449927,
  16922976911328602910, 17689382322260857208, 500013540394364858,
  748580250866718886, 1242879168328830382, 1977374033974150939,
  2944078676154940804, 3659926193048069267, 4368137639120453308,
  4836135668995329356, 5532061633213252278, 6448918945643986474,
  6902733635092675308, 7801388544844847127]

/-- Expand the 16 words of a SHA-512 block to the 80-word schedule. -/
def sha512Sched (block : Bytes) : List Nat :=
  (List.range 64).foldl
    (fun ws _ =>
      let n := ws.length
      let x := ws.getD (n - 15) 0
      let y := ws.getD (n - 2) 0
      let s0 := rotr64 x 1 ^^^ rotr64 x 8 ^^^ (x >>> 7)
      let s1 := rotr64 y 19 ^^^ rotr64 y 61 ^^^ (y >>> 6)
      ws ++ [(ws.getD (n - 16) 0 + s0 + ws.getD (n - 7) 0 + s1) % w64])
    ((List.range 16).map (beWord 8 block))

/-- One SHA-512 round on the eight-word state (as a list). -/
def sha512Step (w : List Nat) (st : List Nat) (i : Nat) : List Nat :=
  match st with
  | [a, b, c, d, e, f, g, h] =>
    let s1 := rotr64 e 14 ^^^ rotr64 e 18 ^^^ rotr64 e 41
    let ch := (e &&& f) ^^^ (not64 e &&& g)
    let t1 := (h + s1 + ch + sha512K.getD i 0 + w.getD i 0) % w64
    let s0 := rotr64 a 28 ^^^ rotr64 a 34 ^^^ rotr64 a 39
    let maj := (a &&& b) ^^^ (a &&& c) ^^^ (b &&& c)
    let t2 := (s0 + maj) % w64
    [(t1 + t2) % w64, a, b, c, (d + t1) % w64, e, f, g]
  | _ => st

def sha512Block (st : List Nat) (block : Bytes) : List Nat :=
  let r := (List.range 80).foldl (sha512Step (sha512Sched block)) st
  List.zipWith (fun x y => (x + y) % w64) st r

/-- SHA-512 digest of a byte sequence, as a lowercase hex string. -/
def sha512Hex (msg : Bytes) : String :=
  let r := (toBlocks 128 (sha512Pad msg)).foldl sha512Block
    [7640891576956012808, 13503953896175478587, 4354685564936845355, 11912009170470909681,
      5840696475078001361, 11170449401992604703, 2270897969802886507, 6620516959819538809]
  bytesToHex (r.map (beBytes 8)).flatten

/-! The Hasher class of src/hasher.py.  A Python dict is an association
list with insertion order; the filesystem is a partial map from paths to
the contents of existing regular files; text strings are UTF-8 encoded. -/

def support_hash_algorithms : List String := ["md5", "sha1", "sha256", "sha512"]

def default_hash_algorithms : List String := support_hash_algorithms

/-- Errors raised by the engine: ValueError for an unsupported algorithm,
FileNotFoundError for a missing file, and the ValueError that the
Python range function raises on a zero step. -/
inductive HashError where
  | unsupportedAlgorithm (name : String)
  | fileNotFound (path : String)
  | rangeStepZero
deriving Repr, DecidableEq

/-- UTF-8 bytes of one character, as in Python str.encode. -/
def utf8Bytes (ch : Char) : Bytes :=
  let n := ch.toNat
  if n < 128 then [n]
  else if n < 2048 then [192 ||| (n >>> 6), 128 ||| (n &&& 63)]
  else if n < 65536 then
    [224 ||| (n >>> 12), 128 ||| ((n >>> 6) &&& 63), 128 ||| (n &&& 63)]
  else
    [240 ||| (n >>> 18), 128 ||| ((n >>> 12) &&& 63), 128 ||| ((n >>> 6) &&& 63),
      128 ||| (n &&& 63)]

/-- UTF-8 encoding of a string, as in Python text.encode("utf-8"). -/
def encodeUTF8 (s : String) : Bytes := (s.data.map utf8Bytes).flatten

/-- Python slice index normalization: a negative index counts from the
end (clamped to 0), a non-negative one is clamped to the length. -/
def pyNormIdx (len : Nat) (i : Int) : Nat :=
  if i < 0 then ((len : Int) + i).toNat else min i.toNat len

/-- Python text[:i] on a character list. -/
def pyTake (cs : List Char) (i : Int) : List Char := cs.take (pyNormIdx cs.length i)

/-- Python text[i:] on a character list. -/
def pyDrop (cs : List Char) (i : Int) : List Char := cs.drop (pyNormIdx cs.length i)

/-- Hasher._shorten_middle_text: keep the text when it fits, else keep
text[:part] and text[-part:] around an ellipsis, with part the Python
floor division (text_max_len - 3) // 2. -/
def _shorten_middle_text (text : String) (text_max_len : Nat := 50) : String :=
  if text.length ≤ text_max_len then text
  else
    let part : Int := Int.fdiv ((text_max_len : Int) - 3) 2
    String.mk (pyTake text.data part ++ [Char.ofNat 46, Char.ofNat 46, Char.ofNat 46]
      ++ pyDrop text.data (-part))

/-- Hasher._validate_hash_algorithms: the list comprehension throws a
ValueError at the first identifier outside support_hash_algorithms and
otherwise rebuilds the list unchanged. -/
def _validate_hash_algorithms : List String → Except HashError (List String)
  | [] => .ok []
  | a :: rest =>
    if a ∈ support_hash_algorithms then
      match _validate_hash_algorithms rest with
      | .ok v => .ok (a :: v)
      | .error e => .error e
    else .error (.unsupportedAlgorithm a)

/-- The hashlib incremental accumulators are modelled by the bytes
absorbed so far; hexdigest dispatches on the algorithm name like
getattr(hashlib, i) does. -/
def hexdigest (alg : String) (data : Bytes) : String :=
  if alg = "md5" then md5Hex data
  else if alg = "sha1" then sha1Hex data
  else if alg = "sha256" then sha256Hex data
  else if alg = "sha512" then sha512Hex data
  else ""

/-- Python dict insertion: replace the value in place when the key is
present, else append the pair. -/
def dictInsert (d : List (String × Bytes)) (k : String) (v : Bytes) : List (String × Bytes) :=
  match d with
  | [] => [(k, v)]
  | p :: rest => if p.1 = k then (k, v) :: rest else p :: dictInsert rest k v

/-- The dict comprehension building one fresh (empty) accumulator per
validated algorithm name. -/
def mkHashers (algs : List String) : List (String × Bytes) :=
  algs.foldl (fun d i => dictInsert d i []) []

/-- One round of the update loop: every accumulator absorbs the chunk. -/
def updateAll (hs : List (String × Bytes)) (chunk : Bytes) : List (String × Bytes) :=
  hs.map fun p => (p.1, p.2 ++ chunk)

/-- The chunks of hash_text: data[i : i + c] for i in range(0, len(data), c). -/
def sliceChunks (c : Nat) (data : Bytes) : List Bytes :=
  (List.range ((data.length + c - 1) / c)).map fun j => (data.drop (j * c)).take c

/-- Hasher.hash_file.  fs models os.path.isfile plus the opened binary
handle: fs path is the contents when path is an existing regular file.
The while-read loop absorbs chunksOf chunk_size; the final dict maps each
algorithm to its hex digest. -/
def hash_file (fs : String → Option Bytes) (file_path : String)
    (hash_algorithms : Option (List String) := none) (chunk_size_mb : Nat := 8) :
    Except HashError (List (String × String)) :=
  match fs file_path with
  | none => .error (.fileNotFound file_path)
  | some data =>
    let algs := hash_algorithms.getD default_hash_algorithms
    let chunk_size := chunk_size_mb * 1024 * 1024
    match _validate_hash_algorithms algs with
    | .error e => .error e
    | .ok algs2 =>
      let hashers := mkHashers algs2
      let final := (chunksOf chunk_size data).foldl updateAll hashers
      .ok (final.map fun p => (p.1, hexdigest p.1 p.2))

/-- Hasher.hash_text.  The text is UTF-8 encoded, then sliced by
range(0, total, chunk_size); a zero chunk_size makes range raise a
ValueError (after validation, when the loop starts). -/
def hash_text (text : String) (hash_algorithms : Option (List String) := none)
    (chunk_size_mb : Nat := 8) : Except HashError (List (String × String)) :=
  let algs := hash_algorithms.getD default_hash_algorithms
  let data := encodeUTF8 text
  let chunk_size := chunk_size_mb * 1024 * 1024
  match _validate_hash_algorithms algs with
  | .error e => .error e
  | .ok algs2 =>
    let hashers := mkHashers algs2
    if chunk_size = 0 then .error .rangeStepZero
    else
      let final := (sliceChunks chunk_size data).foldl updateAll hashers
      .ok (final.map fun p => (p.1, hexdigest p.1 p.2))

/-- First-occurrence deduplication, stated independently of the dict
model: append each identifier unless it is already present. -/
def pyDedup (l : List String) : List String :=
  l.foldl (fun acc a => if a ∈ acc then acc else acc ++ [a]) []

/-! Helper lemmas about the chunked readers and the accumulator dict. -/

theorem chunksOf_nil (c : Nat) : chunksOf c [] = [] := by
  rw [chunksOf]
  simp

theorem chunksOf_cons (c : Nat) (data : Bytes) (hc : c ≠ 0) (hd : data ≠ []) :
    chunksOf c data = data.take c :: chunksOf c (data.drop c) := by
  rw [chunksOf]
  simp [hc, hd]

theorem chunksOf_eq_single (c : Nat) (data : Bytes) (hc : c ≠ 0) (hd : data ≠ [])
    (hlen : data.length ≤ c) : chunksOf c data = [data] := by
  rw [chunksOf_cons c data hc hd, List.take_of_length_le hlen, List.drop_eq_nil_of_le hlen,
    chunksOf_nil]

theorem chunksOf_flatten (c : Nat) (hc : 0 < c) (data : Bytes) :
    (chunksOf c data).flatten = data := by
  generalize hn : data.length = n
  induction n using Nat.strong_induction_on generalizing data with
  | _ n ih =>
    by_cases hd : data = []
    · subst hd
      simp [chunksOf_nil]
    · rw [chunksOf_cons c data hc.ne' hd]
      have hlt : (data.drop c).length < n := by
        have := List.length_pos.mpr hd
        simp only [List.length_drop]
        omega
      rw [List.flatten_cons, ih _ hlt _ rfl, List.take_append_drop]

theorem foldl_updateAll (chunks : List Bytes) (hs : List (String × Bytes)) :
    chunks.foldl updateAll hs = hs.map fun p => (p.1, p.2 ++ chunks.flatten) := by
  induction chunks generalizing hs with
  | nil => simp [updateAll]
  | cons ch rest ih =>
    rw [List.foldl_cons, ih]
    simp [updateAll, List.map_map, Function.comp]

theorem ceil_div_pos_step (c len : Nat) (hc : 0 < c) (hl : 0 < len) :
    (len + c - 1) / c = (len - c + c - 1) / c + 1 := by
  rcases le_or_lt len c with h | h
  · have h0 : len - c + c - 1 = c - 1 := by omega
    have h1 : (c - 1) / c = 0 := Nat.div_eq_of_lt (by omega)
    have h2 : (len + c - 1) / c = 1 := Nat.div_eq_of_lt_le (by omega) (by omega)
    rw [h0, h1, h2]
  · have h0 : len - c + c - 1 = len - 1 := by omega
    have h1 : len + c - 1 = (len - 1) + c := by omega
    rw [h0, h1, Nat.add_div_right _ hc]

theorem sliceChunks_cons (c : Nat) (hc : 0 < c) (data : Bytes) (hd : data ≠ []) :
    sliceChunks c data = data.take c :: sliceChunks c (data.drop c) := by
  have hl : 0 < data.length := List.length_pos.mpr hd
  unfold sliceChunks
  rw [List.length_drop, ceil_div_pos_step c data.length hc hl, List.range_succ_eq_map,
    List.map_cons, List.map_map]
  congr 1
  · simp
  · apply List.map_congr_left
    intro j _
    simp only [Function.comp_apply]
    rw [List.drop_drop]
    congr 2
    have hmul := Nat.succ_mul j c
    omega

theorem sliceChunks_eq_chunksOf (c : Nat) (hc : 0 < c) (data : Bytes) :
    sliceChunks c data = chunksOf c data := by
  generalize hn : data.length = n
  induction n using Nat.strong_induction_on generalizing data with
  | _ n ih =>
    by_cases hd : data = []
    · subst hd
      rw [chunksOf_nil]
      unfold sliceChunks
      have h0 : (List.length ([] : Bytes) + c - 1) / c = 0 := by
        simp only [List.length_nil]
        exact Nat.div_eq_of_lt (by omega)
      rw [h0]
      rfl
    · have hl : 0 < data.length := List.length_pos.mpr hd
      have hlt : (data.drop c).length < n := by
        simp only [List.length_drop]
        omega
      rw [sliceChunks_cons c hc data hd, chunksOf_cons c data hc.ne' hd, ih _ hlt _ rfl]

theorem chunksOf_zero (data : Bytes) : chunksOf 0 data = [] := by
  rw [chunksOf]
  simp

theorem dictInsert_map_nil (ks : List String) (a : String) :
    dictInsert (ks.map fun k => (k, ([] : Bytes))) a [] =
      (if a ∈ ks then ks else ks ++ [a]).map fun k => (k, ([] : Bytes)) := by
  induction ks with
  | nil => simp [dictInsert]
  | cons k ks ih =>
    by_cases h : k = a
    · subst h
      simp [dictInsert]
    · simp only [List.map_cons, dictInsert, h, if_neg, ite_false]
      rw [ih]
      by_cases h2 : a ∈ ks <;> simp [h2, h, Ne.symm h]

theorem mkHashers_eq (algs : List String) :
    mkHashers algs = (pyDedup algs).map fun k => (k, ([] : Bytes)) := by
  suffices h : ∀ (l ks : List String),
      l.foldl (fun d i => dictInsert d i []) (ks.map fun k => (k, ([] : Bytes)))
        = (l.foldl (fun acc a => if a ∈ acc then acc else acc ++ [a]) ks).map
            fun k => (k, ([] : Bytes)) by
    simpa [mkHashers, pyDedup] using h algs []
  intro l
  induction l with
  | nil => intro ks; rfl
  | cons a l ih =>
    intro ks
    rw [List.foldl_cons, List.foldl_cons, dictInsert_map_nil, ih]

theorem validate_ok (algs : List String) (h : ∀ a ∈ algs, a ∈ support_hash_algorithms) :
    _validate_hash_algorithms algs = .ok algs := by
  induction algs with
  | nil => rfl
  | cons a rest ih =>
    have ha : a ∈ support_hash_algorithms := h a (List.mem_cons_self a rest)
    have hr := ih fun b hb => h b (List.mem_cons_of_mem a hb)
    simp [_validate_hash_algorithms, ha, hr]

theorem validate_error (pre suf : List String) (b : String)
    (hpre : ∀ x ∈ pre, x ∈ support_hash_algorithms) (hb : b ∉ support_hash_algorithms) :
    _validate_hash_algorithms (pre ++ b :: suf) = .error (.unsupportedAlgorithm b) := by
  induction pre with
  | nil => simp [_validate_hash_algorithms, hb]
  | cons a pre ih =>
    have ha : a ∈ support_hash_algorithms := hpre a (List.mem_cons_self a pre)
    have h2 := ih fun x hx => hpre x (List.mem_cons_of_mem a hx)
    simp [_validate_hash_algorithms, ha, h2]

theorem hash_text_ok (T : String) (algs : List String)
    (hv : ∀ a ∈ algs, a ∈ support_hash_algorithms) (c : Nat) (hc : 0 < c) :
    hash_text T (some algs) c =
      .ok ((pyDedup algs).map fun k => (k, hexdigest k (encodeUTF8 T))) := by
  have hpos : 0 < c * 1024 * 1024 := by positivity
  simp only [hash_text, validate_ok algs hv, Option.getD_some]
  rw [if_neg hpos.ne']
  rw [mkHashers_eq, sliceChunks_eq_chunksOf _ hpos, foldl_updateAll, chunksOf_flatten _ hpos]
  simp [List.map_map, Function.comp]

theorem hash_file_ok (fs : String → Option Bytes) (p : String) (data : Bytes)
    (hf : fs p = some data) (algs : List String)
    (hv : ∀ a ∈ algs, a ∈ support_hash_algorithms) (c : Nat) (hc : 0 < c) :
    hash_file fs p (some algs) c =
      .ok ((pyDedup algs).map fun k => (k, hexdigest k data)) := by
  have hpos : 0 < c * 1024 * 1024 := by positivity
  simp only [hash_file, hf, validate_ok algs hv, Option.getD_some]
  rw [mkHashers_eq, foldl_updateAll, chunksOf_flatten _ hpos]
  simp [List.map_map, Function.comp]

theorem hash_file_zero (fs : String → Option Bytes) (p : String) (data : Bytes)
    (hf : fs p = some data) (algs : List String)
    (hv : ∀ a ∈ algs, a ∈ support_hash_algorithms) :
    hash_file fs p (some algs) 0 =
      .ok ((pyDedup algs).map fun k => (k, hexdigest k [])) := by
  simp only [hash_file, hf, validate_ok algs hv, Option.getD_some]
  rw [mkHashers_eq, show (0 * 1024 * 1024 : Nat) = 0 from rfl, chunksOf_zero]
  simp [List.map_map, Function.comp]

theorem foldl_dedup_mem (l : List String) (acc : List String) (x : String) :
    x ∈ l.foldl (fun acc a => if a ∈ acc then acc else acc ++ [a]) acc ↔ x ∈ acc ∨ x ∈ l := by
  induction l generalizing acc with
  | nil => simp
  | cons a l ih =>
    rw [List.foldl_cons]
    by_cases h : a ∈ acc
    · rw [if_pos h, ih]
      constructor
      · rintro (hx | hx)
        · exact Or.inl hx
        · exact Or.inr (List.mem_cons_of_mem a hx)
      · rintro (hx | hx)
        · exact Or.inl hx
        · rcases List.mem_cons.mp hx with rfl | hx
          · exact Or.inl h
          · exact Or.inr hx
    · rw [if_neg h, ih]
      simp only [List.mem_append, List.mem_cons, List.mem_singleton]
      tauto

theorem pyDedup_mem (l : List String) (x : String) : x ∈ pyDedup l ↔ x ∈ l := by
  unfold pyDedup
  rw [foldl_dedup_mem]
  simp

theorem foldl_dedup_nodup (l : List String) (acc : List String) (hacc : acc.Nodup) :
    (l.foldl (fun acc a => if a ∈ acc then acc else acc ++ [a]) acc).Nodup := by
  induction l generalizing acc with
  | nil => exact hacc
  | cons a l ih =>
    rw [List.foldl_cons]
    by_cases h : a ∈ acc
    · rw [if_pos h]
      exact ih acc hacc
    · rw [if_neg h]
      apply ih
      simp [List.nodup_append, hacc, h]

theorem pyDedup_nodup (l : List String) : (pyDedup l).Nodup :=
  foldl_dedup_nodup l [] List.nodup_nil

theorem lookup_map_of_mem (ks : List String) (f : String → String) (a : String) (ha : a ∈ ks) :
    (ks.map fun k => (k, f k)).lookup a = some (f a) := by
  induction ks with
  | nil => cases ha
  | cons k ks ih =>
    rw [List.map_cons]
    by_cases h : a = k
    · subst h
      simp [List.lookup]
    · rcases List.mem_cons.mp ha with rfl | hm
      · exact absurd rfl h
      · have hne : (a == k) = false := beq_eq_false_iff_ne.mpr h
        simp [List.lookup, hne, ih hm]

theorem hash_text_none (T : String) (c : Nat) :
    hash_text T none c = hash_text T (some default_hash_algorithms) c := rfl

theorem hash_file_none (fs : String → Option Bytes) (p : String) (c : Nat) :
    hash_file fs p none c = hash_file fs p (some default_hash_algorithms) c := rfl

theorem chunksOf_mem_length (c : Nat) (hc : 0 < c) (data : Bytes) :
    ∀ ch ∈ chunksOf c data, ch ≠ [] ∧ ch.length ≤ c := by
  generalize hn : data.length = n
  induction n using Nat.strong_induction_on generalizing data with
  | _ n ih =>
    intro ch hch
    by_cases hd : data = []
    · subst hd
      rw [chunksOf_nil] at hch
      cases hch
    · rw [chunksOf_cons c data hc.ne' hd] at hch
      rcases List.mem_cons.mp hch with rfl | hm
      · refine ⟨?_, List.length_take_le c data⟩
        simp [List.take_eq_nil_iff, hc.ne', hd]
      · have hl : 0 < data.length := List.length_pos.mpr hd
        have hlt : (data.drop c).length < n := by
          simp only [List.length_drop]
          omega
        exact ih _ hlt _ rfl ch hm

theorem chunksOf_dropLast_length (c : Nat) (hc : 0 < c) (data : Bytes) :
    ∀ ch ∈ (chunksOf c data).dropLast, ch.length = c := by
  generalize hn : data.length = n
  induction n using Nat.strong_induction_on generalizing data with
  | _ n ih =>
    intro ch hch
    by_cases hd : data = []
    · subst hd
      rw [chunksOf_nil] at hch
      cases hch
    · rw [chunksOf_cons c data hc.ne' hd] at hch
      cases hrest : chunksOf c (data.drop c) with
      | nil =>
        rw [hrest] at hch
        simp at hch
      | cons y ys =>
        rw [hrest] at hch
        rw [List.dropLast_cons₂] at hch
        have hl : 0 < data.length := List.length_pos.mpr hd
        rcases List.mem_cons.mp hch with rfl | hm
        · have hdrop : data.drop c ≠ [] := by
            intro h0
            rw [h0, chunksOf_nil] at hrest
            cases hrest
          have hlen : c < data.length := by
            by_contra hle
            push_neg at hle
            exact hdrop (List.drop_eq_nil_of_le hle)
          simp [List.length_take]
          omega
        · have hlt : (data.drop c).length < n := by
            simp only [List.length_drop]
            omega
          have := ih _ hlt _ rfl ch
          rw [hrest] at this
          exact this hm

/-- Claim C1: for a fixed input and algorithm selection, hash_file and
hash_text return the same value for any two positive chunk_size_mb
settings — the digests do not depend on how the input is partitioned. -/
theorem chunk_size_invariance (fs : String → Option Bytes) (p : String) (T : String)
    (a : Option (List String)) (c1 c2 : Nat) (h1 : 0 < c1) (h2 : 0 < c2) :
    hash_file fs p a c1 = hash_file fs p a c2 ∧ hash_text T a c1 = hash_text T a c2 := by
  constructor
  · unfold hash_file
    cases hfs : fs p with
    | none => simp only [hfs]
    | some data =>
      simp only [hfs]
      cases hv : _validate_hash_algorithms (a.getD default_hash_algorithms) with
      | error e => simp only [hv]
      | ok v =>
        simp only [hv]
        rw [foldl_updateAll, foldl_updateAll,
          chunksOf_flatten _ (show 0 < c1 * 1024 * 1024 by positivity),
          chunksOf_flatten _ (show 0 < c2 * 1024 * 1024 by positivity)]
  · unfold hash_text
    cases hv : _validate_hash_algorithms (a.getD default_hash_algorithms) with
    | error e => simp only [hv]
    | ok v =>
      simp only [hv]
      have p1 : 0 < c1 * 1024 * 1024 := by positivity
      have p2 : 0 < c2 * 1024 * 1024 := by positivity
      rw [if_neg p1.ne', if_neg p2.ne',
        sliceChunks_eq_chunksOf _ p1, sliceChunks_eq_chunksOf _ p2,
        foldl_updateAll, foldl_updateAll, chunksOf_flatten _ p1, chunksOf_flatten _ p2]

theorem chunk_size_invariance_witness :
    hash_file (fun q => if q = "f" then some [1, 2, 3] else none) "f" (some ["md5"]) 1
      = hash_file (fun q => if q = "f" then some [1, 2, 3] else none) "f" (some ["md5"]) 2
    ∧ hash_text "abc" (some ["md5"]) 1 = hash_text "abc" (some ["md5"]) 2 :=
  chunk_size_invariance (fun q => if q = "f" then some [1, 2, 3] else none) "f" "abc"
    (some ["md5"]) 1 2 (by decide) (by decide)

/-- Claim C2: for every input and positive chunk size, the chunk sequence
fed to the accumulators concatenates back to the input, has no empty
chunk, every chunk except possibly the last has exactly the chunk size,
and the slicing loop of hash_text produces the same chunks as the read
loop of hash_file. -/
theorem chunk_completeness (c : Nat) (hc : 0 < c) (data : Bytes) :
    (chunksOf c data).flatten = data ∧
    (∀ ch ∈ chunksOf c data, ch ≠ [] ∧ ch.length ≤ c) ∧
    (∀ ch ∈ (chunksOf c data).dropLast, ch.length = c) ∧
    sliceChunks c data = chunksOf c data :=
  ⟨chunksOf_flatten c hc data, chunksOf_mem_length c hc data,
    chunksOf_dropLast_length c hc data, sliceChunks_eq_chunksOf c hc data⟩

theorem chunk_completeness_witness :
    (chunksOf 2 [5, 6, 7]).flatten = [5, 6, 7] ∧
    (∀ ch ∈ chunksOf 2 [5, 6, 7], ch ≠ [] ∧ ch.length ≤ 2) ∧
    (∀ ch ∈ (chunksOf 2 [5, 6, 7]).dropLast, ch.length = 2) ∧
    sliceChunks 2 [5, 6, 7] = chunksOf 2 [5, 6, 7] :=
  chunk_completeness 2 (by decide) [5, 6, 7]

/-- Claim C3: hashing a text and hashing a file whose contents are the
UTF-8 encoding of that text give identical results, for every valid
algorithm list and positive chunk size. -/
theorem text_file_equivalence (T : String) (A : List String)
    (hA : ∀ a ∈ A, a ∈ support_hash_algorithms) (c : Nat) (hc : 0 < c)
    (fs : String → Option Bytes) (p : String) (hf : fs p = some (encodeUTF8 T)) :
    hash_text T (some A) c = hash_file fs p (some A) c := by
  rw [hash_text_ok T A hA c hc, hash_file_ok fs p (encodeUTF8 T) hf A hA c hc]

theorem text_file_equivalence_witness :
    hash_text "abc" (some ["md5", "sha256"]) 1
      = hash_file (fun q => if q = "p" then some (encodeUTF8 "abc") else none) "p"
          (some ["md5", "sha256"]) 1 :=
  text_file_equivalence "abc" ["md5", "sha256"] (by decide) 1 (by decide)
    (fun q => if q = "p" then some (encodeUTF8 "abc") else none) "p" (by decide)

/-- Claim C4: when the requested list contains an unrecognized identifier,
hash_file (on an existing file) and hash_text return the
UnsupportedAlgorithm error naming the first unrecognized identifier in
input order, and no digest is produced; in particular requesting sha256,
bogus, md5 fails naming bogus. -/
theorem validation_short_circuit (pre suf : List String) (b : String)
    (hpre : ∀ x ∈ pre, x ∈ support_hash_algorithms) (hb : b ∉ support_hash_algorithms)
    (fs : String → Option Bytes) (p : String) (data : Bytes) (hf : fs p = some data)
    (T : String) (c : Nat) :
    hash_file fs p (some (pre ++ b :: suf)) c = .error (.unsupportedAlgorithm b) ∧
    hash_text T (some (pre ++ b :: suf)) c = .error (.unsupportedAlgorithm b) ∧
    hash_text "x" (some ["sha256", "bogus", "md5"]) 8
      = .error (.unsupportedAlgorithm "bogus") := by
  have hv := validate_error pre suf b hpre hb
  refine ⟨?_, ?_, rfl⟩
  · simp only [hash_file, hf, Option.getD_some, hv]
  · simp only [hash_text, Option.getD_some, hv]

theorem validation_short_circuit_witness :
    hash_file (fun _ => some []) "f" (some (["sha256"] ++ "bogus" :: ["md5"])) 8
      = .error (.unsupportedAlgorithm "bogus") ∧
    hash_text "t" (some (["sha256"] ++ "bogus" :: ["md5"])) 8
      = .error (.unsupportedAlgorithm "bogus") ∧
    hash_text "x" (some ["sha256", "bogus", "md5"]) 8
      = .error (.unsupportedAlgorithm "bogus") :=
  validation_short_circuit ["sha256"] ["md5"] "bogus" (by decide) (by decide)
    (fun _ => some []) "f" [] (by decide) "t" 8

theorem hexdigest_md5_nil : hexdigest "md5" [] = "d41d8cd98f00b204e9800998ecf8427e" := by
  decide

/-- Claim C5: hashing the empty text (or an empty file) with any
supported algorithm list yields, per algorithm, the digest of the empty
input; the md5 entry is the well-known constant d41d8cd98f00b204e9800998ecf8427e. -/
theorem empty_input_digests (algs : List String)
    (hv : ∀ a ∈ algs, a ∈ support_hash_algorithms) (c : Nat) (hc : 0 < c)
    (fs : String → Option Bytes) (p : String) (hf : fs p = some []) :
    hash_text "" (some algs) c = .ok ((pyDedup algs).map fun k => (k, hexdigest k [])) ∧
    hash_file fs p (some algs) c = .ok ((pyDedup algs).map fun k => (k, hexdigest k [])) ∧
    (∀ r, hash_text "" (some algs) c = .ok r → "md5" ∈ algs →
      r.lookup "md5" = some "d41d8cd98f00b204e9800998ecf8427e") := by
  have henc : encodeUTF8 "" = [] := rfl
  have h1 := hash_text_ok "" algs hv c hc
  rw [henc] at h1
  refine ⟨h1, hash_file_ok fs p [] hf algs hv c hc, ?_⟩
  intro r hr hmd5
  rw [h1] at hr
  obtain rfl := (Except.ok.inj hr).symm
  rw [lookup_map_of_mem _ _ _ ((pyDedup_mem algs "md5").mpr hmd5), hexdigest_md5_nil]

theorem empty_input_digests_witness :
    hash_text "" (some ["md5", "sha1"]) 8
        = .ok ((pyDedup ["md5", "sha1"]).map fun k => (k, hexdigest k [])) ∧
    hash_file (fun _ => some []) "f" (some ["md5", "sha1"]) 8
        = .ok ((pyDedup ["md5", "sha1"]).map fun k => (k, hexdigest k [])) ∧
    (∀ r, hash_text "" (some ["md5", "sha1"]) 8 = .ok r → "md5" ∈ ["md5", "sha1"] →
      r.lookup "md5" = some "d41d8cd98f00b204e9800998ecf8427e") :=
  empty_input_digests ["md5", "sha1"] (by decide) 8 (by decide) (fun _ => some []) "f"
    (by decide)

/-- Claim C6: for a valid requested list, the keys of the returned
mapping are exactly the requested identifiers with duplicates collapsed
to their first occurrence, in insertion order — no extra, none missing. -/
theorem result_key_exactness (A : List String)
    (hA : ∀ a ∈ A, a ∈ support_hash_algorithms) (c : Nat) (hc : 0 < c) (T : String)
    (fs : String → Option Bytes) (p : String) (data : Bytes) (hf : fs p = some data) :
    (∀ r, hash_text T (some A) c = .ok r →
      r.map Prod.fst = pyDedup A ∧ (r.map Prod.fst).Nodup ∧
        ∀ x, x ∈ r.map Prod.fst ↔ x ∈ A) ∧
    (∀ r, hash_file fs p (some A) c = .ok r →
      r.map Prod.fst = pyDedup A ∧ (r.map Prod.fst).Nodup ∧
        ∀ x, x ∈ r.map Prod.fst ↔ x ∈ A) := by
  constructor
  · intro r hr
    rw [hash_text_ok T A hA c hc] at hr
    obtain rfl := (Except.ok.inj hr).symm
    have hkeys : ((pyDedup A).map fun k => (k, hexdigest k (encodeUTF8 T))).map Prod.fst
        = pyDedup A := by
      simp [List.map_map, Function.comp_def]
    refine ⟨hkeys, ?_, ?_⟩
    · rw [hkeys]
      exact pyDedup_nodup A
    · intro x
      rw [hkeys]
      exact pyDedup_mem A x
  · intro r hr
    rw [hash_file_ok fs p data hf A hA c hc] at hr
    obtain rfl := (Except.ok.inj hr).symm
    have hkeys : ((pyDedup A).map fun k => (k, hexdigest k data)).map Prod.fst
        = pyDedup A := by
      simp [List.map_map, Function.comp_def]
    refine ⟨hkeys, ?_, ?_⟩
    · rw [hkeys]
      exact pyDedup_nodup A
    · intro x
      rw [hkeys]
      exact pyDedup_mem A x

theorem result_key_exactness_witness :
    (∀ r, hash_text "t" (some ["sha1", "md5", "sha1"]) 8 = .ok r →
      r.map Prod.fst = pyDedup ["sha1", "md5", "sha1"] ∧ (r.map Prod.fst).Nodup ∧
        ∀ x, x ∈ r.map Prod.fst ↔ x ∈ ["sha1", "md5", "sha1"]) ∧
    (∀ r, hash_file (fun _ => some [7]) "f" (some ["sha1", "md5", "sha1"]) 8 = .ok r →
      r.map Prod.fst = pyDedup ["sha1", "md5", "sha1"] ∧ (r.map Prod.fst).Nodup ∧
        ∀ x, x ∈ r.map Prod.fst ↔ x ∈ ["sha1", "md5", "sha1"]) :=
  result_key_exactness ["sha1", "md5", "sha1"] (by decide) 8 (by decide) "t"
    (fun _ => some [7]) "f" [7] (by decide)

/-- Claim C7: for any valid subset of the supported algorithms, each
digest in the subset run coincides with the digest for the same
algorithm in a run with the full default set, on the same input. -/
theorem algorithm_independence (S : List String)
    (hS : ∀ a ∈ S, a ∈ support_hash_algorithms) (c : Nat) (hc : 0 < c) (T : String)
    (fs : String → Option Bytes) (p : String) (data : Bytes) (hf : fs p = some data) :
    (∀ rS rF, hash_text T (some S) c = .ok rS → hash_text T none c = .ok rF →
      ∀ a ∈ S, rS.lookup a = rF.lookup a) ∧
    (∀ rS rF, hash_file fs p (some S) c = .ok rS → hash_file fs p none c = .ok rF →
      ∀ a ∈ S, rS.lookup a = rF.lookup a) := by
  have hdv : ∀ a ∈ default_hash_algorithms, a ∈ support_hash_algorithms := fun a ha => ha
  constructor
  · intro rS rF hS' hF' a ha
    rw [hash_text_ok T S hS c hc] at hS'
    rw [hash_text_none, hash_text_ok T default_hash_algorithms hdv c hc] at hF'
    obtain rfl := (Except.ok.inj hS').symm
    obtain rfl := (Except.ok.inj hF').symm
    rw [lookup_map_of_mem _ _ _ ((pyDedup_mem S a).mpr ha),
      lookup_map_of_mem _ _ _ ((pyDedup_mem default_hash_algorithms a).mpr (hS a ha))]
  · intro rS rF hS' hF' a ha
    rw [hash_file_ok fs p data hf S hS c hc] at hS'
    rw [hash_file_none, hash_file_ok fs p data hf default_hash_algorithms hdv c hc] at hF'
    obtain rfl := (Except.ok.inj hS').symm
    obtain rfl := (Except.ok.inj hF').symm
    rw [lookup_map_of_mem _ _ _ ((pyDedup_mem S a).mpr ha),
      lookup_map_of_mem _ _ _ ((pyDedup_mem default_hash_algorithms a).mpr (hS a ha))]

theorem algorithm_independence_witness :
    (∀ rS rF, hash_text "t" (some ["sha256"]) 8 = .ok rS → hash_text "t" none 8 = .ok rF →
      ∀ a ∈ ["sha256"], rS.lookup a = rF.lookup a) ∧
    (∀ rS rF, hash_file (fun _ => some [9]) "f" (some ["sha256"]) 8 = .ok rS →
      hash_file (fun _ => some [9]) "f" none 8 = .ok rF →
      ∀ a ∈ ["sha256"], rS.lookup a = rF.lookup a) :=
  algorithm_independence ["sha256"] (by decide) 8 (by decide) "t"
    (fun _ => some [9]) "f" [9] (by decide)

/-- Claim C8: when the path does not resolve to an existing regular
file, hash_file fails at once with the FileNotFoundError naming the
path, for every algorithm selection and chunk size, returning no result. -/
theorem input_not_found (fs : String → Option Bytes) (p : String) (hf : fs p = none)
    (a : Option (List String)) (c : Nat) :
    hash_file fs p a c = .error (.fileNotFound p) := by
  simp only [hash_file, hf]

theorem input_not_found_witness :
    hash_file (fun _ => none) "missing" (some ["nonsense"]) 0
      = .error (.fileNotFound "missing") :=
  input_not_found (fun _ => none) "missing" (by decide) (some ["nonsense"]) 0

/-- Claim C9: with chunk_size_mb zero, hash_file on an existing file
returns normally and every entry is the empty-input digest of its
algorithm, whatever the file contents; hash_text instead raises the
range step ValueError. -/
theorem zero_chunk_size (fs : String → Option Bytes) (p : String) (data : Bytes)
    (hf : fs p = some data) (algs : List String)
    (hv : ∀ a ∈ algs, a ∈ support_hash_algorithms) :
    hash_file fs p (some algs) 0 = .ok ((pyDedup algs).map fun k => (k, hexdigest k [])) ∧
    ∀ T, hash_text T (some algs) 0 = .error .rangeStepZero := by
  refine ⟨hash_file_zero fs p data hf algs hv, ?_⟩
  intro T
  simp only [hash_text, validate_ok algs hv, Option.getD_some]
  rfl

theorem zero_chunk_size_witness :
    hash_file (fun _ => some [1, 2, 3]) "f" (some ["md5", "sha512"]) 0
        = .ok ((pyDedup ["md5", "sha512"]).map fun k => (k, hexdigest k [])) ∧
    ∀ T, hash_text T (some ["md5", "sha512"]) 0 = .error .rangeStepZero :=
  zero_chunk_size (fun _ => some [1, 2, 3]) "f" [1, 2, 3] (by decide) ["md5", "sha512"]
    (by decide)

/-- Claim C10 (counterexample): with maximum 3 and the four-character
text abcd, the code keeps an empty prefix but the Python slice
text[-0:] is the whole text, so the result is ...abcd of length 7,
exceeding the configured maximum — the claimed cap is false as stated
for every m. -/
theorem shorten_middle_cap_counterexample :
    _shorten_middle_text "abcd" 3 = "...abcd" ∧
    ¬ ((_shorten_middle_text "abcd" 3).length ≤ 3) := by
  decide

/-- Claim C10 (amended): for a configured maximum of at least 5 (the
default is 50), _shorten_middle_text returns the text unchanged when it
fits, and otherwise returns a prefix and a suffix of the text of equal
length, joined by the three-character ellipsis, with total length at
most the maximum. -/
theorem shorten_middle_truncation (text : String) (m : Nat) (hm : 5 ≤ m) :
    (text.length ≤ m → _shorten_middle_text text m = text) ∧
    (m < text.length →
      (_shorten_middle_text text m).data
          = text.data.take ((m - 3) / 2) ++ [Char.ofNat 46, Char.ofNat 46, Char.ofNat 46]
            ++ text.data.drop (text.data.length - (m - 3) / 2) ∧
      (text.data.take ((m - 3) / 2)).length
          = (text.data.drop (text.data.length - (m - 3) / 2)).length ∧
      (_shorten_middle_text text m).length ≤ m) := by
  constructor
  · intro hle
    rw [_shorten_middle_text, if_pos hle]
  · intro hgt
    have hnle : ¬ text.length ≤ m := by omega
    have hlen : text.length = text.data.length := rfl
    have hpartlt : (m - 3) / 2 < text.data.length := by omega
    have hP : Int.fdiv ((m : Int) - 3) 2 = (((m - 3) / 2 : Nat) : Int) := by
      rw [show ((m : Int) - 3) = ((m - 3 : Nat) : Int) by omega]
      exact (Int.ofNat_fdiv (m - 3) 2).symm
    have htake : pyTake text.data (((m - 3) / 2 : Nat) : Int)
        = text.data.take ((m - 3) / 2) := by
      unfold pyTake pyNormIdx
      rw [if_neg (by omega)]
      congr 1
      omega
    have hdrop : pyDrop text.data (-(((m - 3) / 2 : Nat) : Int))
        = text.data.drop (text.data.length - (m - 3) / 2) := by
      unfold pyDrop pyNormIdx
      rw [if_pos (by omega)]
      congr 1
      omega
    have hdata : (_shorten_middle_text text m).data
        = text.data.take ((m - 3) / 2) ++ [Char.ofNat 46, Char.ofNat 46, Char.ofNat 46]
          ++ text.data.drop (text.data.length - (m - 3) / 2) := by
      rw [_shorten_middle_text, if_neg hnle]
      simp only [hP, htake, hdrop]
    refine ⟨hdata, ?_, ?_⟩
    · rw [List.length_take, List.length_drop]
      omega
    · have h1 : (_shorten_middle_text text m).length
          = (_shorten_middle_text text m).data.length := rfl
      rw [h1, hdata]
      simp only [List.length_append, List.length_take, List.length_cons, List.length_nil,
        List.length_drop]
      omega

theorem shorten_middle_truncation_witness :
    ("abcdefgh".length ≤ 6 → _shorten_middle_text "abcdefgh" 6 = "abcdefgh") ∧
    (6 < "abcdefgh".length →
      (_shorten_middle_text "abcdefgh" 6).data
          = "abcdefgh".data.take ((6 - 3) / 2)
            ++ [Char.ofNat 46, Char.ofNat 46, Char.ofNat 46]
            ++ "abcdefgh".data.drop ("abcdefgh".data.length - (6 - 3) / 2) ∧
      ("abcdefgh".data.take ((6 - 3) / 2)).length
          = ("abcdefgh".data.drop ("abcdefgh".data.length - (6 - 3) / 2)).length ∧
      (_shorten_middle_text "abcdefgh" 6).length ≤ 6) :=
  shorten_middle_truncation "abcdefgh" 6 (by decide)

end Hasher
